import Mathlib

/-!
Verification development for the larana optical-detector flash finder
(OpFlashAlg) and the MCTruthT0Matching producer module.

The repository ships the OpFlashAlg.h and AlgoFirstPeak.h headers
(declarations only); the bodies of the opdet and pmtana functions are not
part of the repository, so those functions are modelled from the
specification, as stated in each doc comment.  MCTruthT0Matching_module.cc
is present in full and is embedded from its source.

Numeric convention: C++ double is modelled as Rat (exact arithmetic), ADC
samples (C++ short) as Int, and indices/channels as Nat.
-/

/-- An optical hit: channel id, peak time, and photoelectron-equivalent
integral, as in recob::OpHit restricted to the fields the flash algorithms
read.  Times and PE are Rat, standing in for C++ double. -/
structure OpHit where
  opChannel : Nat
  peakTime : ℚ
  pe : ℚ
deriving DecidableEq

/-- An optical flash: the fields of recob::OpFlash that the claims and the
late-light filter read.  timeWidth2 holds the PE-weighted variance of the
hit times (the code stores its square root, which is not rational; no claim
concerns the width). -/
structure OpFlash where
  time : ℚ
  timeWidth2 : ℚ
  totalPE : ℚ
  peVec : List ℚ
  frame : Nat
deriving DecidableEq

/-- Sum of the photoelectron-equivalent integrals of a list of hits. -/
def sumHitPE (hits : List OpHit) : ℚ :=
  (hits.map OpHit.pe).sum

/-- Modelled from the spec: the per-channel photoelectron accumulation of
ConstructFlashes (body absent from the repository) sums the PE of the
cluster hits on one channel.  Spec 4.5: "accumulate per-channel
photoelectron sums". -/
def sumPEOnChannel (hits : List OpHit) (c : Nat) : ℚ :=
  ((hits.filter (fun h => h.opChannel == c)).map OpHit.pe).sum

/-- Modelled from the spec: the per-channel PE vector of a flash, dense over
the detector channel count and zero-filled for untriggered channels
(spec 3, invariants). -/
def PEperChannel (nChannels : Nat) (hits : List OpHit) : List ℚ :=
  (List.range nChannels).map (fun c => sumPEOnChannel hits c)

/-- Modelled from the spec: the numerator of the PE-weighted mean of the hit
times used by ConstructFlashes. -/
def weightedTimeNum (hits : List OpHit) : ℚ :=
  (hits.map (fun h => h.pe * h.peakTime)).sum

/-- Modelled from the spec: flash time is the PE-weighted mean of the
constituent hit times (spec 4.5), with the division guarded as the spec
demands for the impossible zero-PE cluster. -/
def flashTime (hits : List OpHit) : ℚ :=
  if sumHitPE hits = 0 then 0 else weightedTimeNum hits / sumHitPE hits

/-- Modelled from the spec: PE-weighted variance of the hit times
(the square of the flash time width of spec 4.5). -/
def flashTimeWidth2 (hits : List OpHit) : ℚ :=
  if sumHitPE hits = 0 then 0
  else (hits.map (fun h => h.pe * (h.peakTime - flashTime hits) ^ 2)).sum / sumHitPE hits

/-- Modelled from the spec: the body of opdet::ConstructFlashes
(declared in OpFlashAlg.h, body absent from the repository) aggregating ONE
hit cluster into an OpFlash: total PE is the sum over channels of the
per-channel PE vector, flash time the PE-weighted mean of hit times
(spec 4.5).  Geometry-derived location fields are out of scope (spec 1). -/
def ConstructFlash (nChannels frame : Nat) (hits : List OpHit) : OpFlash :=
  { time := flashTime hits
    timeWidth2 := flashTimeWidth2 hits
    totalPE := (PEperChannel nChannels hits).sum
    peVec := PEperChannel nChannels hits
    frame := frame }

/-- The hits of a cluster, a cluster being a list of indices into the hit
collection as in the C++ signature (vector of vector of int alongside the
OpHit vector); out-of-range indices contribute nothing. -/
def clusterHits (hits : List OpHit) (c : List Nat) : List OpHit :=
  c.filterMap (fun i => hits.get? i)

/-- Modelled from the spec: the body of opdet::ConstructFlashes (declared in
OpFlashAlg.h, body absent from the repository): one OpFlash per surviving
hit cluster (spec 4.5). -/
def ConstructFlashes (nChannels frame : Nat) (clusters : List (List Nat))
    (hits : List OpHit) : List OpFlash :=
  clusters.map (fun c => ConstructFlash nChannels frame (clusterHits hits c))

/-- Smallest element of a list of rationals (0 for the empty list, which the
claims never use). -/
def listMinQ : List ℚ → ℚ
  | [] => 0
  | [x] => x
  | x :: y :: t => min x (listMinQ (y :: t))

/-- Largest element of a list of rationals (0 for the empty list, which the
claims never use). -/
def listMaxQ : List ℚ → ℚ
  | [] => 0
  | [x] => x
  | x :: y :: t => max x (listMaxQ (y :: t))

/-- Boolean time comparison on hits, the sort key of the clustering sweep. -/
def hitLE (a b : OpHit) : Bool :=
  a.peakTime ≤ b.peakTime

/-- Modelled from the spec: AssignHitsToFlash first sorts all hits of the
frame by absolute time (spec 4.4). -/
def sortHitsByTime (hits : List OpHit) : List OpHit :=
  hits.mergeSort hitLE

/-- A hit is inside the coincidence window opened at cluster-start time t0:
closed interval, a hit exactly at the boundary is included (spec 4.4). -/
def inWindow (w t0 : ℚ) (h : OpHit) : Bool :=
  h.peakTime ≤ t0 + w

/-- Modelled from the spec: the sweep of AssignHitsToFlash (body absent from
the repository).  Open a cluster at the first unassigned hit, extend it
while the next hit lies within the window flash_width of the CLUSTER START
(fixed-width-from-origin, spec 4.4), close it at the first hit outside and
open a new cluster there. -/
def sweepClusters (w : ℚ) : List OpHit → List (List OpHit)
  | [] => []
  | h :: rest =>
    (h :: rest.takeWhile (inWindow w h.peakTime)) ::
      sweepClusters w (rest.dropWhile (inWindow w h.peakTime))
termination_by l => l.length
decreasing_by
  exact Nat.lt_succ_of_le ((List.dropWhile_sublist _).length_le)

/-- Modelled from the spec: the body of opdet::AssignHitsToFlash (declared
in OpFlashAlg.h, body absent from the repository): sort the frame's hits by
time, then sweep once with the fixed-width window (spec 4.4).  Clusters are
returned as hit lists; the C++ code records the indices of the same hits. -/
def AssignHitsToFlash (w : ℚ) (hits : List OpHit) : List (List OpHit) :=
  sweepClusters w (sortHitsByTime hits)

/-- Number of distinct channels spanned by a cluster. -/
def clusterChannels (c : List OpHit) : Nat :=
  ((c.map OpHit.opChannel).dedup).length

/-- Modelled from the spec: the refinement acceptance test of
RefineHitsToFlash; clusters whose hit count, spanning channel count, or
summed amplitude fall below configured minimums are discarded (spec 4.4). -/
def keepCluster (minHits minCh : Nat) (minPE : ℚ) (c : List OpHit) : Bool :=
  minHits ≤ c.length && (minCh ≤ clusterChannels c && minPE ≤ sumHitPE c)

/-- Modelled from the spec: the body of opdet::RefineHitsToFlash (declared
in OpFlashAlg.h, body absent from the repository): discard clusters below
the configured minimum hit count, channel count or summed amplitude
(spec 4.4; the optional secondary-window split, which the spec says "may"
happen, is not modelled). -/
def RefineHitsToFlash (minHits minCh : Nat) (minPE : ℚ)
    (clusters : List (List OpHit)) : List (List OpHit) :=
  clusters.filter (keepCluster minHits minCh minPE)

/-- A cluster viewed as a multiset of hits: the canonical form of
"the same cluster up to sorting its hits by time". -/
def toMS (c : List OpHit) : Multiset OpHit :=
  (c : Multiset OpHit)

/-- A reconstructed pulse, as in pmtana::pulse_param restricted to what the
claims read: start, peak and end sample and peak amplitude. -/
structure Pulse where
  t_start : Nat
  t_max : Nat
  t_end : Nat
  peak : ℤ
deriving DecidableEq

/-- Largest sample of a waveform slice (0 for the empty list). -/
def listMaxZ : List ℤ → ℤ
  | [] => 0
  | [x] => x
  | x :: y :: t => max x (listMaxZ (y :: t))

/-- Index of the first occurrence of the global maximum of a slice: the peak
sample the Threshold algorithm reports for a region. -/
def argmaxIdx (l : List ℤ) : Nat :=
  l.indexOf (listMaxZ l)

/-- Index of the first rising-edge local maximum of a slice: scan while the
trace is non-decreasing and stop at the first strict drop (the last sample
if the trace never drops).  This is the peak sample AlgoFirstPeak pins the
hit time to (spec 4.1, AlgoFirstPeak.h header comment). -/
def firstPeakIdx : List ℤ → Nat
  | [] => 0
  | [_] => 0
  | a :: b :: t => if b < a then 0 else firstPeakIdx (b :: t) + 1

/-- Modelled from the spec: the region scanner shared by AlgoThreshold and
AlgoFirstPeak (bodies absent from the repository).  A region starts where
the trace first exceeds the threshold and ends where it falls back below it
(spec 4.1); each region is returned with its start index. -/
def regionsGo (thr : ℤ) : Nat → List ℤ → List (Nat × List ℤ)
  | _, [] => []
  | i, x :: rest =>
    if thr < x then
      (i, x :: rest.takeWhile (fun y => thr < y)) ::
        regionsGo thr (i + 1 + (rest.takeWhile (fun y => thr < y)).length)
          (rest.dropWhile (fun y => thr < y))
    else regionsGo thr (i + 1) rest
termination_by _ l => l.length
decreasing_by
  · exact Nat.lt_succ_of_le ((List.dropWhile_sublist _).length_le)
  · exact Nat.lt_succ_of_le (Nat.le_refl _)

/-- The above-threshold regions of a waveform, with their start indices. -/
def regions (thr : ℤ) (wf : List ℤ) : List (Nat × List ℤ) :=
  regionsGo thr 0 wf

/-- Modelled from the spec: the pulse AlgoThreshold emits for one region:
start and end frame the region, the peak sample is the region's global
maximum (spec 4.1). -/
def mkPulseThreshold (s : Nat) (run : List ℤ) : Pulse :=
  { t_start := s
    t_max := s + argmaxIdx run
    t_end := s + run.length - 1
    peak := listMaxZ run }

/-- Modelled from the spec: the pulse AlgoFirstPeak emits for one region:
identical to AlgoThreshold except that the peak sample is pinned to the
first rising-edge local maximum (spec 4.1). -/
def mkPulseFirstPeak (s : Nat) (run : List ℤ) : Pulse :=
  { t_start := s
    t_max := s + firstPeakIdx run
    t_end := s + run.length - 1
    peak := listMaxZ run }

/-- Modelled from the spec: the pulse list of pmtana::AlgoThreshold
(threshold-variant hit extraction, body absent from the repository). -/
def recoPulsesThreshold (thr : ℤ) (wf : List ℤ) : List Pulse :=
  (regions thr wf).map (fun r => mkPulseThreshold r.1 r.2)

/-- Modelled from the spec: the pulse list of pmtana::AlgoFirstPeak::RecoPulse
(declared in AlgoFirstPeak.h, body absent from the repository). -/
def recoPulsesFirstPeak (thr : ℤ) (wf : List ℤ) : List Pulse :=
  (regions thr wf).map (fun r => mkPulseFirstPeak r.1 r.2)

/-- A strictly descending slice. -/
def strictDesc : List ℤ → Bool
  | [] => true
  | [_] => true
  | a :: b :: t => b < a && strictDesc (b :: t)

/-- A single-bump slice: strictly rises, then strictly falls. -/
def unimodal : List ℤ → Bool
  | [] => false
  | [_] => true
  | a :: b :: t => if a < b then unimodal (b :: t) else strictDesc (a :: b :: t)

/-- A single-peak waveform: exactly one above-threshold region, and that
region is a single bump. -/
def SinglePeak (thr : ℤ) (wf : List ℤ) : Prop :=
  ∃ s run, regions thr wf = [(s, run)] ∧ unimodal run = true

/-- Modelled from the spec: the entry point
pmtana::AlgoFirstPeak::RecoPulse (declared in AlgoFirstPeak.h, body absent
from the repository): false and zero pulses on degenerate input, a waveform
shorter than the minimum length (spec 4.1, 4.2, 7a); otherwise true and the
extracted pulses. -/
def RecoPulse (thr : ℤ) (minLen : Nat) (wf : List ℤ) : Bool × List Pulse :=
  if wf.length < minLen then (false, [])
  else (true, recoPulsesFirstPeak thr wf)

/-- Modelled from the spec: per-channel dispatch of the frame driver
(spec 4.7, 5): each channel's waveform is reconstructed independently; a
malformed waveform yields zero pulses for that channel only and never aborts
the frame. -/
def processChannels (thr : ℤ) (minLen : Nat) (wfs : List (List ℤ)) :
    List (List Pulse) :=
  wfs.map (fun wf => (RecoPulse thr minLen wf).2)

/-- Channels of a flash with strictly positive PE: its active-channel set
(spec 4.6). -/
def activeChannels (f : OpFlash) : List Nat :=
  (List.range f.peVec.length).filter (fun c => decide (0 < f.peVec.getD c 0))

/-- Number of active channels flash B shares with flash A. -/
def overlapCount (A B : OpFlash) : Nat :=
  ((activeChannels B).filter (fun c => (activeChannels A).contains c)).length

/-- Modelled from the spec: the late-light test of RemoveLateLight
(spec 4.6): flash B is late light of flash A when B occurs after A within
the late-light window, B's total PE is below the configured fraction of A's,
and B's active-channel set substantially overlaps A's (at least the
configured fraction of B's active channels are also active in A). -/
def isLateLightOf (w frac ovFrac : ℚ) (A B : OpFlash) : Bool :=
  decide (A.time < B.time) && decide (B.time ≤ A.time + w) &&
    decide (B.totalPE < frac * A.totalPE) &&
    decide (ovFrac * ((activeChannels B).length : ℚ) ≤ (overlapCount A B : ℚ))

/-- Flash B is dropped when some flash A of the collection certifies it as
late light. -/
def droppedAsLateLight (w frac ovFrac : ℚ) (flashes : List OpFlash)
    (B : OpFlash) : Bool :=
  flashes.any (fun A => isLateLightOf w frac ovFrac A B)

/-- Modelled from the spec: the body of opdet::RemoveLateLight (declared in
OpFlashAlg.h, body absent from the repository): drop every flash recognised
as the late-light tail of an earlier flash, and its hit-cluster entry, from
the output collections (spec 4.6). -/
def RemoveLateLight (w frac ovFrac : ℚ) (flashes : List OpFlash)
    (clusters : List (List Nat)) : List OpFlash × List (List Nat) :=
  ( flashes.filter (fun B => !droppedAsLateLight w frac ovFrac flashes B)
  , ((flashes.zip clusters).filter
      (fun p => !droppedAsLateLight w frac ovFrac flashes p.1)).map Prod.snd )

/-- Modelled from the spec: the body of opdet::GetTriggerTime (declared in
OpFlashAlg.h, body absent from the repository): return the first
beam-gate/trigger marker at or after the configured lower bound, or the
no-trigger sentinel, flag set with time 0, when none exists (spec 6).
A marker is reduced to its time; the Bool is the no-trigger flag. -/
def GetTriggerTime (gates : List ℚ) (lowerBound : ℚ) : Bool × ℚ :=
  match gates.find? (fun t => decide (lowerBound ≤ t)) with
  | some t => (false, t)
  | none => (true, 0)

namespace t0

/-- A simb::MCParticle reduced to the two fields MCTruthT0Matching::produce
reads off the matched particle: TrackId() and T(). -/
structure MCParticle where
  trackId : ℤ
  t : ℚ
deriving DecidableEq

/-- An anab::T0 as constructed by MCTruthT0Matching::produce: the four
constructor arguments Time, TriggerType, TriggerBits (the Geant4 track id)
and ID (MCTruthT0Matching_module.cc lines 373-377, 446-450, 531-535). -/
structure T0 where
  time : ℚ
  triggerType : Nat
  triggerBits : ℤ
  id : Nat
deriving DecidableEq

/-- The fcl configuration of MCTruthT0Matching
(MCTruthT0Matching_module.cc lines 148-153). -/
structure ProduceConfig where
  overrideRealData : Bool
  makeT0Assns : Bool
  makePFParticleAssns : Bool
  makeHitAssns : Bool
deriving DecidableEq

/-- The event data MCTruthT0Matching::produce reads.  The backtracker and
particle-inventory services are external (out of scope); each
track/shower/PFParticle is abstracted to the outcome of its MC matching:
none when TrackIdToParticle_P returns null (the loop's continue,
lines 356, 433, 514), some particle otherwise.  hitAssnPairs abstracts the
number of hit-to-MCParticle association pairs the backtracker block emits
(lines 253-314). -/
structure ProduceInput where
  isRealData : Bool
  tracksValid : Bool
  trackMatches : List (Option MCParticle)
  showersValid : Bool
  showerMatches : List (Option MCParticle)
  pfpsValid : Bool
  pfpMatches : List (Option MCParticle)
  hitAssnPairs : Nat
deriving DecidableEq

/-- The products MCTruthT0Matching::produce stores into the event, plus the
number of TTree fills.  A none field means the corresponding product is not
put at all. -/
structure ProduceOutput where
  putT0 : Option (List T0)
  putTrackT0Assn : Option Nat
  putShowerT0Assn : Option Nat
  putPFParticleT0Assn : Option Nat
  putTrackMCAssn : Option Nat
  putShowerMCAssn : Option Nat
  putPFParticleMCAssn : Option Nat
  putHitMCAssn : Option Nat
  treeFills : Nat
deriving DecidableEq

/-- The output of a produce call that stores nothing and fills no tree. -/
def emptyOutput : ProduceOutput :=
  { putT0 := none
    putTrackT0Assn := none
    putShowerT0Assn := none
    putPFParticleT0Assn := none
    putTrackMCAssn := none
    putShowerMCAssn := none
    putPFParticleMCAssn := none
    putHitMCAssn := none
    treeFills := 0 }

/-- One T0col push_back: the T0 is constructed with Time = particle.T(),
TriggerType = 2, TriggerBits = particle.TrackId() and ID = the collection
size at the moment of insertion
(MCTruthT0Matching_module.cc lines 373-377). -/
def pushT0 (col : List T0) (p : MCParticle) : List T0 :=
  col ++ [{ time := p.t, triggerType := 2, triggerBits := p.trackId,
            id := col.length }]

/-- One of the three matching loops of produce: unmatched items are skipped
by continue, matched items push one T0 onto the shared collection. -/
def processItems (col : List T0) (items : List (Option MCParticle)) :
    List T0 :=
  items.foldl
    (fun acc item =>
      match item with
      | none => acc
      | some p => pushT0 acc p)
    col

/-- The items a loop runs over: empty when the corresponding handle is not
valid (lines 317, 395, 467). -/
def loopItems (valid : Bool) (ms : List (Option MCParticle)) :
    List (Option MCParticle) :=
  if valid then ms else []

/-- The T0 collection produce builds: the track loop, then the shower loop,
then the PFParticle loop, all pushing onto one collection
(MCTruthT0Matching_module.cc lines 317-556). -/
def buildT0col (inp : ProduceInput) : List T0 :=
  processItems
    (processItems
      (processItems [] (loopItems inp.tracksValid inp.trackMatches))
      (loopItems inp.showersValid inp.showerMatches))
    (loopItems inp.pfpsValid inp.pfpMatches)

/-- Number of matched items of a loop: each one produces one association
addSingle and, in the track and PFParticle loops, one tree fill. -/
def countMatched (items : List (Option MCParticle)) : Nat :=
  (items.filter Option.isSome).length

/-- t0::MCTruthT0Matching::produce (MCTruthT0Matching_module.cc
lines 187-573) as an event transformer.  Line 189: on real data without the
OverrideRealData flag it returns at once, storing nothing.  Otherwise it
builds the T0 collection and the associations and puts them as guarded by
the configuration flags (lines 558-572); the tree is filled once per
matched track (line 390) and once per matched PFParticle (line 554), never
for showers. -/
def produce (cfg : ProduceConfig) (inp : ProduceInput) : ProduceOutput :=
  if inp.isRealData && !cfg.overrideRealData then emptyOutput
  else
    { putT0 := if cfg.makeT0Assns then some (buildT0col inp) else none
      putTrackT0Assn :=
        if cfg.makeT0Assns then
          some (countMatched (loopItems inp.tracksValid inp.trackMatches))
        else none
      putShowerT0Assn :=
        if cfg.makeT0Assns then
          some (countMatched (loopItems inp.showersValid inp.showerMatches))
        else none
      putPFParticleT0Assn :=
        if cfg.makeT0Assns && cfg.makePFParticleAssns then
          some (countMatched (loopItems inp.pfpsValid inp.pfpMatches))
        else none
      putTrackMCAssn :=
        some (countMatched (loopItems inp.tracksValid inp.trackMatches))
      putShowerMCAssn :=
        some (countMatched (loopItems inp.showersValid inp.showerMatches))
      putPFParticleMCAssn :=
        if cfg.makePFParticleAssns then
          some (countMatched (loopItems inp.pfpsValid inp.pfpMatches))
        else none
      putHitMCAssn :=
        if cfg.makeHitAssns then some inp.hitAssnPairs else none
      treeFills :=
        countMatched (loopItems inp.tracksValid inp.trackMatches) +
          countMatched (loopItems inp.pfpsValid inp.pfpMatches) }

end t0

/-! Helper lemmas. -/

theorem sumPEOnChannel_cons (h : OpHit) (hs : List OpHit) (c : Nat) :
    sumPEOnChannel (h :: hs) c
      = (if h.opChannel = c then h.pe else 0) + sumPEOnChannel hs c := by
  by_cases hc : h.opChannel = c
  · simp [sumPEOnChannel, List.filter_cons, hc]
  · simp [sumPEOnChannel, List.filter_cons, hc]

theorem sum_map_add_q (l : List Nat) (f g : Nat → ℚ) :
    (l.map (fun c => f c + g c)).sum = (l.map f).sum + (l.map g).sum := by
  induction l with
  | nil => simp
  | cons x t ih => simp [ih]; ring

theorem sum_range_ite_q (n k : Nat) (x : ℚ) (hk : k < n) :
    ((List.range n).map (fun c => if k = c then x else 0)).sum = x := by
  induction n with
  | zero => omega
  | succ m ih =>
    rw [List.range_succ, List.map_append, List.sum_append]
    rcases Nat.lt_or_ge k m with hkm | hkm
    · rw [ih hkm]
      have : k ≠ m := Nat.ne_of_lt hkm
      simp [this]
    · have hkeq : k = m := Nat.le_antisymm (Nat.lt_succ_iff.mp hk) hkm
      subst hkeq
      have : ∀ c ∈ List.range k, (if k = c then x else 0) = 0 := by
        intro c hc
        have : c < k := List.mem_range.mp hc
        simp [Nat.ne_of_gt this]
      rw [List.map_congr_left this]
      simp

theorem PEperChannel_sum_eq (n : Nat) (hs : List OpHit)
    (hch : ∀ h ∈ hs, h.opChannel < n) :
    (PEperChannel n hs).sum = sumHitPE hs := by
  induction hs with
  | nil => simp [PEperChannel, sumPEOnChannel, sumHitPE]
  | cons h t ih =>
    have hh : h.opChannel < n := hch h (List.mem_cons_self h t)
    have ht : ∀ x ∈ t, x.opChannel < n := fun x hx => hch x (List.mem_cons_of_mem h hx)
    have expand : PEperChannel n (h :: t)
        = (List.range n).map
            (fun c => (if h.opChannel = c then h.pe else 0) + sumPEOnChannel t c) := by
      apply List.map_congr_left
      intro c _
      exact sumPEOnChannel_cons h t c
    rw [PEperChannel] at ih
    rw [expand, sum_map_add_q, ih ht, sum_range_ite_q n h.opChannel h.pe hh]
    simp [sumHitPE]

theorem mem_clusterHits {hits : List OpHit} {c : List Nat} {h : OpHit}
    (hm : h ∈ clusterHits hits c) : h ∈ hits := by
  rcases List.mem_filterMap.mp hm with ⟨i, _, hget⟩
  exact List.get?_mem hget

/-- C1: for every flash produced by ConstructFlashes, the sum of the entries
of its per-channel PE vector equals its total PE, and this total equals the
sum of the PE-equivalent integrals of the hits in its cluster, exactly.
Hypothesis: every hit's channel id is within the detector channel count,
which is how the per-channel vector is dense over the channels (spec 3). -/
theorem C1_flash_pe_conservation (nCh frame : Nat) (clusters : List (List Nat))
    (hits : List OpHit) (hch : ∀ h ∈ hits, h.opChannel < nCh)
    (c : List Nat) (hc : c ∈ clusters) :
    ConstructFlash nCh frame (clusterHits hits c)
        ∈ ConstructFlashes nCh frame clusters hits ∧
    (ConstructFlash nCh frame (clusterHits hits c)).peVec.sum
        = (ConstructFlash nCh frame (clusterHits hits c)).totalPE ∧
    (ConstructFlash nCh frame (clusterHits hits c)).totalPE
        = sumHitPE (clusterHits hits c) := by
  refine ⟨List.mem_map_of_mem _ hc, rfl, ?_⟩
  show (PEperChannel nCh (clusterHits hits c)).sum = sumHitPE (clusterHits hits c)
  exact PEperChannel_sum_eq nCh _ (fun h hm => hch h (mem_clusterHits hm))

theorem C1_flash_pe_conservation_witness :
    (∀ h ∈ [OpHit.mk 0 1 2, OpHit.mk 1 5 3], h.opChannel < 2) ∧
    [0, 1] ∈ [[0, 1]] ∧
    (ConstructFlash 2 7 (clusterHits [OpHit.mk 0 1 2, OpHit.mk 1 5 3] [0, 1])
        ∈ ConstructFlashes 2 7 [[0, 1]] [OpHit.mk 0 1 2, OpHit.mk 1 5 3] ∧
     (ConstructFlash 2 7 (clusterHits [OpHit.mk 0 1 2, OpHit.mk 1 5 3] [0, 1])).peVec.sum
        = (ConstructFlash 2 7 (clusterHits [OpHit.mk 0 1 2, OpHit.mk 1 5 3] [0, 1])).totalPE ∧
     (ConstructFlash 2 7 (clusterHits [OpHit.mk 0 1 2, OpHit.mk 1 5 3] [0, 1])).totalPE
        = sumHitPE (clusterHits [OpHit.mk 0 1 2, OpHit.mk 1 5 3] [0, 1])) :=
  ⟨by decide, by decide,
    C1_flash_pe_conservation 2 7 [[0, 1]] [OpHit.mk 0 1 2, OpHit.mk 1 5 3]
      (by decide) [0, 1] (by decide)⟩

theorem listMinQ_le : ∀ (l : List ℚ), ∀ x ∈ l, listMinQ l ≤ x
  | [], x, hx => absurd hx (List.not_mem_nil x)
  | [a], x, hx => by
    simp only [List.mem_singleton] at hx
    simp [listMinQ, hx]
  | a :: b :: t, x, hx => by
    rcases List.mem_cons.mp hx with rfl | hx'
    · simp [listMinQ]
    · exact le_trans (min_le_right _ _) (listMinQ_le (b :: t) x hx')

theorem le_listMaxQ : ∀ (l : List ℚ), ∀ x ∈ l, x ≤ listMaxQ l
  | [], x, hx => absurd hx (List.not_mem_nil x)
  | [a], x, hx => by
    simp only [List.mem_singleton] at hx
    simp [listMaxQ, hx]
  | a :: b :: t, x, hx => by
    rcases List.mem_cons.mp hx with rfl | hx'
    · simp [listMaxQ]
    · exact le_trans (le_listMaxQ (b :: t) x hx') (le_max_right _ _)

theorem weightedTimeNum_lower (m : ℚ) (hs : List OpHit)
    (hb : ∀ h ∈ hs, m ≤ h.peakTime) (hpe : ∀ h ∈ hs, 0 ≤ h.pe) :
    m * sumHitPE hs ≤ weightedTimeNum hs := by
  induction hs with
  | nil => simp [sumHitPE, weightedTimeNum]
  | cons h t ih =>
    have hm : m ≤ h.peakTime := hb h (List.mem_cons_self h t)
    have hp : 0 ≤ h.pe := hpe h (List.mem_cons_self h t)
    have iht := ih (fun x hx => hb x (List.mem_cons_of_mem h hx))
      (fun x hx => hpe x (List.mem_cons_of_mem h hx))
    have h1 : m * h.pe ≤ h.pe * h.peakTime := by
      have h2 := mul_le_mul_of_nonneg_right hm hp
      have h3 : h.peakTime * h.pe = h.pe * h.peakTime := mul_comm _ _
      linarith
    simp only [sumHitPE, weightedTimeNum, List.map_cons, List.sum_cons] at *
    calc m * (h.pe + (t.map OpHit.pe).sum)
        = m * h.pe + m * (t.map OpHit.pe).sum := by ring
      _ ≤ h.pe * h.peakTime + (t.map (fun x => x.pe * x.peakTime)).sum :=
          add_le_add h1 iht

theorem weightedTimeNum_upper (M : ℚ) (hs : List OpHit)
    (hb : ∀ h ∈ hs, h.peakTime ≤ M) (hpe : ∀ h ∈ hs, 0 ≤ h.pe) :
    weightedTimeNum hs ≤ M * sumHitPE hs := by
  induction hs with
  | nil => simp [sumHitPE, weightedTimeNum]
  | cons h t ih =>
    have hm : h.peakTime ≤ M := hb h (List.mem_cons_self h t)
    have hp : 0 ≤ h.pe := hpe h (List.mem_cons_self h t)
    have iht := ih (fun x hx => hb x (List.mem_cons_of_mem h hx))
      (fun x hx => hpe x (List.mem_cons_of_mem h hx))
    have h1 : h.pe * h.peakTime ≤ M * h.pe := by
      have h2 := mul_le_mul_of_nonneg_right hm hp
      have h3 : h.peakTime * h.pe = h.pe * h.peakTime := mul_comm _ _
      have h4 : M * h.pe = h.pe * M := mul_comm _ _
      linarith
    simp only [sumHitPE, weightedTimeNum, List.map_cons, List.sum_cons] at *
    calc h.pe * h.peakTime + (t.map (fun x => x.pe * x.peakTime)).sum
        ≤ M * h.pe + M * (t.map OpHit.pe).sum := add_le_add h1 iht
      _ = M * (h.pe + (t.map OpHit.pe).sum) := by ring

theorem flashTime_bounds (hs : List OpHit)
    (hpe : ∀ h ∈ hs, 0 ≤ h.pe) (hpos : 0 < sumHitPE hs) :
    listMinQ (hs.map OpHit.peakTime) ≤ flashTime hs ∧
    flashTime hs ≤ listMaxQ (hs.map OpHit.peakTime) := by
  have hne : sumHitPE hs ≠ 0 := ne_of_gt hpos
  have hlow : ∀ h ∈ hs, listMinQ (hs.map OpHit.peakTime) ≤ h.peakTime :=
    fun h hm => listMinQ_le _ _ (List.mem_map_of_mem OpHit.peakTime hm)
  have hhigh : ∀ h ∈ hs, h.peakTime ≤ listMaxQ (hs.map OpHit.peakTime) :=
    fun h hm => le_listMaxQ _ _ (List.mem_map_of_mem OpHit.peakTime hm)
  rw [flashTime, if_neg hne]
  constructor
  · rw [le_div_iff₀ hpos]
    exact weightedTimeNum_lower _ hs hlow hpe
  · rw [div_le_iff₀ hpos]
    have := weightedTimeNum_upper (listMaxQ (hs.map OpHit.peakTime)) hs hhigh hpe
    linarith [mul_comm (listMaxQ (hs.map OpHit.peakTime)) (sumHitPE hs)]

/-- C2: for every flash ConstructFlashes produces from a non-empty hit
cluster, the flash time, the PE-weighted mean of the constituent hit times,
lies within the closed interval from the minimum to the maximum hit time of
the cluster.  Hit PE integrals are nonnegative with positive cluster total,
as holds for every hit the pipeline builds from an above-threshold pulse. -/
theorem C2_flash_time_in_hit_time_range (nCh frame : Nat)
    (clusters : List (List Nat)) (hits : List OpHit)
    (c : List Nat) (hc : c ∈ clusters)
    (_hne : clusterHits hits c ≠ [])
    (hpe : ∀ h ∈ clusterHits hits c, 0 ≤ h.pe)
    (hpos : 0 < sumHitPE (clusterHits hits c)) :
    ConstructFlash nCh frame (clusterHits hits c)
        ∈ ConstructFlashes nCh frame clusters hits ∧
    listMinQ ((clusterHits hits c).map OpHit.peakTime)
        ≤ (ConstructFlash nCh frame (clusterHits hits c)).time ∧
    (ConstructFlash nCh frame (clusterHits hits c)).time
        ≤ listMaxQ ((clusterHits hits c).map OpHit.peakTime) := by
  refine ⟨List.mem_map_of_mem _ hc, ?_, ?_⟩
  · exact (flashTime_bounds _ hpe hpos).1
  · exact (flashTime_bounds _ hpe hpos).2

theorem C2_flash_time_in_hit_time_range_witness :
    [0, 1] ∈ [[0, 1]] ∧
    clusterHits [OpHit.mk 0 1 2, OpHit.mk 1 5 3] [0, 1] ≠ [] ∧
    (∀ h ∈ clusterHits [OpHit.mk 0 1 2, OpHit.mk 1 5 3] [0, 1], 0 ≤ h.pe) ∧
    0 < sumHitPE (clusterHits [OpHit.mk 0 1 2, OpHit.mk 1 5 3] [0, 1]) ∧
    (ConstructFlash 2 7 (clusterHits [OpHit.mk 0 1 2, OpHit.mk 1 5 3] [0, 1])
        ∈ ConstructFlashes 2 7 [[0, 1]] [OpHit.mk 0 1 2, OpHit.mk 1 5 3] ∧
     listMinQ ((clusterHits [OpHit.mk 0 1 2, OpHit.mk 1 5 3] [0, 1]).map OpHit.peakTime)
        ≤ (ConstructFlash 2 7 (clusterHits [OpHit.mk 0 1 2, OpHit.mk 1 5 3] [0, 1])).time ∧
     (ConstructFlash 2 7 (clusterHits [OpHit.mk 0 1 2, OpHit.mk 1 5 3] [0, 1])).time
        ≤ listMaxQ ((clusterHits [OpHit.mk 0 1 2, OpHit.mk 1 5 3] [0, 1]).map OpHit.peakTime)) :=
  ⟨by decide, by decide, by decide, by simp [sumHitPE, clusterHits]; norm_num,
    C2_flash_time_in_hit_time_range 2 7 [[0, 1]] [OpHit.mk 0 1 2, OpHit.mk 1 5 3]
      [0, 1] (by decide) (by decide) (by decide)
      (by simp [sumHitPE, clusterHits]; norm_num)⟩


/-- Time order on hits, as a proposition. -/
def tle (a b : OpHit) : Prop :=
  a.peakTime ≤ b.peakTime

theorem hitLE_trans (a b c : OpHit) (h1 : hitLE a b = true)
    (h2 : hitLE b c = true) : hitLE a c = true := by
  simp only [hitLE, decide_eq_true_eq] at *
  exact le_trans h1 h2

theorem hitLE_total (a b : OpHit) : (hitLE a b || hitLE b a) = true := by
  simp only [hitLE, Bool.or_eq_true, decide_eq_true_eq]
  exact le_total _ _

theorem sortHitsByTime_perm (hits : List OpHit) :
    List.Perm (sortHitsByTime hits) hits :=
  List.mergeSort_perm hits hitLE

theorem sortHitsByTime_sorted (hits : List OpHit) :
    (sortHitsByTime hits).Pairwise tle := by
  have h := List.sorted_mergeSort hitLE_trans hitLE_total hits
  exact h.imp (fun hab => by simpa [hitLE, tle, decide_eq_true_eq] using hab)

theorem dropWhile_head_false {p : OpHit → Bool} {l : List OpHit} {x : OpHit}
    {xs : List OpHit} (h : l.dropWhile p = x :: xs) : p x = false := by
  have hh := List.head?_dropWhile_not p l
  rw [h] at hh
  simpa using hh

theorem sweepClusters_flatten (w : ℚ) :
    ∀ (l : List OpHit), (sweepClusters w l).flatten = l
  | [] => by simp [sweepClusters]
  | h :: rest => by
    rw [sweepClusters, List.flatten_cons,
      sweepClusters_flatten w (rest.dropWhile (inWindow w h.peakTime))]
    simp [List.takeWhile_append_dropWhile]
termination_by l => l.length
decreasing_by
  exact Nat.lt_succ_of_le ((List.dropWhile_sublist _).length_le)

theorem sweepClusters_bounds (w : ℚ) (hw : 0 ≤ w) :
    ∀ (l : List OpHit), l.Pairwise tle →
      ∀ c ∈ sweepClusters w l, ∃ h0 t, c = h0 :: t ∧
        ∀ h ∈ c, h0.peakTime ≤ h.peakTime ∧ h.peakTime ≤ h0.peakTime + w
  | [], _, c, hc => by simp [sweepClusters] at hc
  | h :: rest, hsorted, c, hc => by
    rw [sweepClusters] at hc
    rcases List.mem_cons.mp hc with rfl | hc'
    · refine ⟨h, _, rfl, ?_⟩
      intro x hx
      rcases List.mem_cons.mp hx with rfl | hx'
      · exact ⟨le_refl _, by linarith⟩
      · have hxr : x ∈ rest := List.takeWhile_subset _ hx'
        have h1 : h.peakTime ≤ x.peakTime := List.rel_of_pairwise_cons hsorted hxr
        have h2 : inWindow w h.peakTime x = true := List.mem_takeWhile_imp hx'
        simp only [inWindow, decide_eq_true_eq] at h2
        exact ⟨h1, h2⟩
    · have hsub : (rest.dropWhile (inWindow w h.peakTime)).Pairwise tle :=
        (List.pairwise_cons.mp hsorted).2.sublist (List.dropWhile_sublist _)
      exact sweepClusters_bounds w hw _ hsub c hc'
termination_by l => l.length
decreasing_by
  exact Nat.lt_succ_of_le ((List.dropWhile_sublist _).length_le)

theorem sweepClusters_separated (w : ℚ) :
    ∀ (l : List OpHit),
      List.Chain'
        (fun c₁ c₂ => ∀ h₁ h₂, c₁.head? = some h₁ → c₂.head? = some h₂ →
          h₁.peakTime + w < h₂.peakTime)
        (sweepClusters w l)
  | [] => by simp [sweepClusters]
  | h :: rest => by
    rw [sweepClusters, List.chain'_cons']
    refine ⟨?_, sweepClusters_separated w (rest.dropWhile (inWindow w h.peakTime))⟩
    intro c hc h₁ h₂ hh₁ hh₂
    simp only [List.head?_cons, Option.some.injEq] at hh₁
    subst hh₁
    rcases hd : rest.dropWhile (inWindow w h.peakTime) with _ | ⟨x, xs⟩
    · rw [hd] at hc
      simp [sweepClusters] at hc
    · rw [hd, sweepClusters] at hc
      rw [List.head?_cons, Option.mem_def] at hc
      injection hc with hc
      subst hc
      simp only [List.head?_cons, Option.some.injEq] at hh₂
      subst hh₂
      have hx : inWindow w h.peakTime x = false := dropWhile_head_false hd
      simp only [inWindow, decide_eq_false_iff_not, not_le] at hx
      linarith
termination_by l => l.length
decreasing_by
  exact Nat.lt_succ_of_le ((List.dropWhile_sublist _).length_le)

/-- C3: the sweep of AssignHitsToFlash, in time order, places a hit in the
open cluster exactly when its time is within flash_width of the time of the
FIRST hit of that cluster (closed interval: a hit precisely at the boundary
is included), otherwise it closes the cluster and opens a new one there.
Formally: the clusters concatenate back to the time-sorted hits; every hit
of a cluster lies in the closed window of the cluster's first hit; and the
first hit of each following cluster lies strictly outside the previous
cluster's window.  On a sorted list these three facts determine the
partition uniquely, so they are exactly the stated if-and-only-if,
window boundary included. -/
theorem C3_window_from_cluster_origin (w : ℚ) (hw : 0 ≤ w)
    (hits : List OpHit) :
    (AssignHitsToFlash w hits).flatten = sortHitsByTime hits ∧
    (∀ c ∈ AssignHitsToFlash w hits, ∃ h0 t, c = h0 :: t ∧
      ∀ h ∈ c, h0.peakTime ≤ h.peakTime ∧ h.peakTime ≤ h0.peakTime + w) ∧
    List.Chain'
      (fun c₁ c₂ => ∀ h₁ h₂, c₁.head? = some h₁ → c₂.head? = some h₂ →
        h₁.peakTime + w < h₂.peakTime)
      (AssignHitsToFlash w hits) :=
  ⟨sweepClusters_flatten w (sortHitsByTime hits),
   sweepClusters_bounds w hw (sortHitsByTime hits) (sortHitsByTime_sorted hits),
   sweepClusters_separated w (sortHitsByTime hits)⟩

theorem C3_window_from_cluster_origin_witness :
    (0 : ℚ) ≤ 10 ∧
    ((AssignHitsToFlash 10 [OpHit.mk 0 0 1, OpHit.mk 1 10 1, OpHit.mk 2 25 1]).flatten
        = sortHitsByTime [OpHit.mk 0 0 1, OpHit.mk 1 10 1, OpHit.mk 2 25 1] ∧
     (∀ c ∈ AssignHitsToFlash 10 [OpHit.mk 0 0 1, OpHit.mk 1 10 1, OpHit.mk 2 25 1],
        ∃ h0 t, c = h0 :: t ∧
          ∀ h ∈ c, h0.peakTime ≤ h.peakTime ∧ h.peakTime ≤ h0.peakTime + 10) ∧
     List.Chain'
       (fun c₁ c₂ => ∀ h₁ h₂, c₁.head? = some h₁ → c₂.head? = some h₂ →
         h₁.peakTime + 10 < h₂.peakTime)
       (AssignHitsToFlash 10 [OpHit.mk 0 0 1, OpHit.mk 1 10 1, OpHit.mk 2 25 1])) :=
  ⟨by norm_num,
    C3_window_from_cluster_origin 10 (by norm_num)
      [OpHit.mk 0 0 1, OpHit.mk 1 10 1, OpHit.mk 2 25 1]⟩

theorem takeWhile_inWindow_eq_filter (w t0 : ℚ) :
    ∀ (l : List OpHit), l.Pairwise tle →
      l.takeWhile (inWindow w t0) = l.filter (inWindow w t0) := by
  intro l
  induction l with
  | nil => intro _; rfl
  | cons a t ih =>
    intro hs
    by_cases hp : inWindow w t0 a = true
    · rw [List.takeWhile_cons_of_pos hp, List.filter_cons_of_pos hp,
        ih (List.pairwise_cons.mp hs).2]
    · rw [List.takeWhile_cons_of_neg hp, List.filter_cons_of_neg hp]
      symm
      rw [List.filter_eq_nil_iff]
      intro x hx hpx
      apply hp
      simp only [inWindow, decide_eq_true_eq] at hpx ⊢
      have hax : a.peakTime ≤ x.peakTime := List.rel_of_pairwise_cons hs hx
      linarith

theorem dropWhile_inWindow_eq_filter (w t0 : ℚ) :
    ∀ (l : List OpHit), l.Pairwise tle →
      l.dropWhile (inWindow w t0) = l.filter (fun h => !(inWindow w t0 h)) := by
  intro l
  induction l with
  | nil => intro _; rfl
  | cons a t ih =>
    intro hs
    by_cases hp : inWindow w t0 a = true
    · rw [List.dropWhile_cons_of_pos hp, ih (List.pairwise_cons.mp hs).2,
        List.filter_cons_of_neg (by simp [hp])]
    · rw [List.dropWhile_cons_of_neg hp, List.filter_cons_of_pos (by simp [hp])]
      congr 1
      symm
      rw [List.filter_eq_self]
      intro x hx
      simp only [Bool.not_eq_true', inWindow, decide_eq_false_iff_not, not_le]
      simp only [inWindow, decide_eq_true_eq, not_le] at hp
      have hax : a.peakTime ≤ x.peakTime := List.rel_of_pairwise_cons hs hx
      linarith

theorem perm_sorted_map_time {l₁ l₂ : List OpHit} (hp : List.Perm l₁ l₂)
    (h₁ : l₁.Pairwise tle) (h₂ : l₂.Pairwise tle) :
    l₁.map OpHit.peakTime = l₂.map OpHit.peakTime := by
  have s₁ : List.Sorted (fun a b : ℚ => a ≤ b) (l₁.map OpHit.peakTime) :=
    h₁.map OpHit.peakTime (fun a b hab => hab)
  have s₂ : List.Sorted (fun a b : ℚ => a ≤ b) (l₂.map OpHit.peakTime) :=
    h₂.map OpHit.peakTime (fun a b hab => hab)
  exact List.eq_of_perm_of_sorted (hp.map OpHit.peakTime) s₁ s₂

theorem sweepClusters_perm_aux (w : ℚ) (hw : 0 ≤ w) :
    ∀ (n : Nat) (l₁ l₂ : List OpHit), l₁.length ≤ n → List.Perm l₁ l₂ →
      l₁.Pairwise tle → l₂.Pairwise tle →
      (sweepClusters w l₁).map toMS = (sweepClusters w l₂).map toMS := by
  intro n
  induction n with
  | zero =>
    intro l₁ l₂ hlen hp _ _
    have h1 : l₁ = [] := List.length_eq_zero.mp (Nat.le_zero.mp hlen)
    subst h1
    have h2 : l₂ = [] := (hp.symm).eq_nil
    subst h2
    rfl
  | succ m ih =>
    intro l₁ l₂ hlen hp hs₁ hs₂
    match l₁, hp with
    | [], hp =>
      have h2 : l₂ = [] := (hp.symm).eq_nil
      subst h2
      rfl
    | h₁ :: r₁, hp =>
      match l₂ with
      | [] => exact absurd hp.symm (by simp [List.Perm])
      | h₂ :: r₂ =>
        have htimes := perm_sorted_map_time hp hs₁ hs₂
        simp only [List.map_cons, List.cons.injEq] at htimes
        have hteq : h₂.peakTime = h₁.peakTime := htimes.1.symm
        have hph₁ : inWindow w h₁.peakTime h₁ = true := by
          simp only [inWindow, decide_eq_true_eq]
          linarith
        have hph₂ : inWindow w h₂.peakTime h₂ = true := by
          simp only [inWindow, decide_eq_true_eq]
          linarith
        rw [sweepClusters, sweepClusters, List.map_cons, List.map_cons]
        have hc₁ : h₁ :: r₁.takeWhile (inWindow w h₁.peakTime)
            = (h₁ :: r₁).filter (inWindow w h₁.peakTime) := by
          rw [List.filter_cons_of_pos hph₁]
          congr 1
          exact takeWhile_inWindow_eq_filter w h₁.peakTime r₁
            (List.pairwise_cons.mp hs₁).2
        have hc₂ : h₂ :: r₂.takeWhile (inWindow w h₂.peakTime)
            = (h₂ :: r₂).filter (inWindow w h₁.peakTime) := by
          rw [hteq] at hph₂ ⊢
          rw [List.filter_cons_of_pos hph₂]
          congr 1
          exact takeWhile_inWindow_eq_filter w h₁.peakTime r₂
            (List.pairwise_cons.mp hs₂).2
        have hd₁ : r₁.dropWhile (inWindow w h₁.peakTime)
            = (h₁ :: r₁).filter (fun h => !(inWindow w h₁.peakTime h)) := by
          rw [List.filter_cons_of_neg (by simp [hph₁]),
            ← dropWhile_inWindow_eq_filter w h₁.peakTime r₁
              (List.pairwise_cons.mp hs₁).2]
        have hd₂ : r₂.dropWhile (inWindow w h₂.peakTime)
            = (h₂ :: r₂).filter (fun h => !(inWindow w h₁.peakTime h)) := by
          rw [hteq] at hph₂ ⊢
          rw [List.filter_cons_of_neg (by simp [hph₂]),
            ← dropWhile_inWindow_eq_filter w h₁.peakTime r₂
              (List.pairwise_cons.mp hs₂).2]
        congr 1
        · apply Multiset.coe_eq_coe.mpr
          rw [hc₁, hc₂]
          exact hp.filter (inWindow w h₁.peakTime)
        · apply ih
          · have : (r₁.dropWhile (inWindow w h₁.peakTime)).length ≤ r₁.length :=
              (List.dropWhile_sublist _).length_le
            have hr : r₁.length ≤ m := by
              have := hlen
              simp only [List.length_cons] at this
              omega
            omega
          · rw [hd₁, hd₂]
            exact hp.filter _
          · exact ((List.pairwise_cons.mp hs₁).2).sublist (List.dropWhile_sublist _)
          · exact ((List.pairwise_cons.mp hs₂).2).sublist (List.dropWhile_sublist _)

theorem sweepClusters_perm (w : ℚ) (hw : 0 ≤ w) {l₁ l₂ : List OpHit}
    (hp : List.Perm l₁ l₂) (hs₁ : l₁.Pairwise tle) (hs₂ : l₂.Pairwise tle) :
    (sweepClusters w l₁).map toMS = (sweepClusters w l₂).map toMS :=
  sweepClusters_perm_aux w hw l₁.length l₁ l₂ (le_refl _) hp hs₁ hs₂

theorem keepCluster_congr (minHits minCh : Nat) (minPE : ℚ)
    {c₁ c₂ : List OpHit} (hp : List.Perm c₁ c₂) :
    keepCluster minHits minCh minPE c₁ = keepCluster minHits minCh minPE c₂ := by
  have h1 : c₁.length = c₂.length := hp.length_eq
  have h2 : (List.map OpHit.opChannel c₁).dedup.length
      = (List.map OpHit.opChannel c₂).dedup.length :=
    ((hp.map OpHit.opChannel).dedup).length_eq
  have h3 : (List.map OpHit.pe c₁).sum = (List.map OpHit.pe c₂).sum :=
    (hp.map OpHit.pe).sum_eq
  simp only [keepCluster, clusterChannels, sumHitPE, h1, h2, h3]

theorem refine_map_toMS (minHits minCh : Nat) (minPE : ℚ) :
    ∀ (cs₁ cs₂ : List (List OpHit)), cs₁.map toMS = cs₂.map toMS →
      (RefineHitsToFlash minHits minCh minPE cs₁).map toMS
        = (RefineHitsToFlash minHits minCh minPE cs₂).map toMS := by
  intro cs₁
  induction cs₁ with
  | nil =>
    intro cs₂ hm
    have : cs₂ = [] := by
      cases cs₂ with
      | nil => rfl
      | cons b t => simp at hm
    subst this
    rfl
  | cons a t ih =>
    intro cs₂ hm
    cases cs₂ with
    | nil => simp at hm
    | cons b t₂ =>
      simp only [List.map_cons, List.cons.injEq] at hm
      have hab : List.Perm a b := Multiset.coe_eq_coe.mp hm.1
      have hk : keepCluster minHits minCh minPE a
          = keepCluster minHits minCh minPE b := keepCluster_congr _ _ _ hab
      simp only [RefineHitsToFlash] at *
      by_cases hka : keepCluster minHits minCh minPE a = true
      · rw [List.filter_cons_of_pos hka, List.filter_cons_of_pos (hk ▸ hka),
          List.map_cons, List.map_cons, ih t₂ hm.2]
        simp only [List.cons.injEq]
        exact ⟨hm.1, trivial⟩
      · rw [List.filter_cons_of_neg hka, List.filter_cons_of_neg (hk ▸ hka)]
        exact ih t₂ hm.2

/-- C4: clustering, AssignHitsToFlash followed by RefineHitsToFlash, is
invariant under reordering of the input hits: permuted input yields the
same list of clusters, each cluster up to the order of its hits (multiset
equality, i.e. equality once each cluster is put in any canonical order
such as sorted by time). -/
theorem C4_clustering_order_invariant (w : ℚ) (hw : 0 ≤ w)
    (minHits minCh : Nat) (minPE : ℚ) (hits₁ hits₂ : List OpHit)
    (hp : List.Perm hits₁ hits₂) :
    (RefineHitsToFlash minHits minCh minPE (AssignHitsToFlash w hits₁)).map toMS
      = (RefineHitsToFlash minHits minCh minPE (AssignHitsToFlash w hits₂)).map toMS := by
  apply refine_map_toMS
  apply sweepClusters_perm w hw
  · exact ((sortHitsByTime_perm hits₁).trans hp).trans (sortHitsByTime_perm hits₂).symm
  · exact sortHitsByTime_sorted hits₁
  · exact sortHitsByTime_sorted hits₂

theorem C4_clustering_order_invariant_witness :
    (0 : ℚ) ≤ 10 ∧
    List.Perm [OpHit.mk 0 0 1, OpHit.mk 1 30 2] [OpHit.mk 1 30 2, OpHit.mk 0 0 1] ∧
    (RefineHitsToFlash 1 1 0 (AssignHitsToFlash 10 [OpHit.mk 0 0 1, OpHit.mk 1 30 2])).map toMS
      = (RefineHitsToFlash 1 1 0 (AssignHitsToFlash 10 [OpHit.mk 1 30 2, OpHit.mk 0 0 1])).map toMS :=
  ⟨by norm_num, List.Perm.swap (OpHit.mk 1 30 2) (OpHit.mk 0 0 1) [],
    C4_clustering_order_invariant 10 (by norm_num) 1 1 0
      [OpHit.mk 0 0 1, OpHit.mk 1 30 2] [OpHit.mk 1 30 2, OpHit.mk 0 0 1]
      (List.Perm.swap (OpHit.mk 1 30 2) (OpHit.mk 0 0 1) [])⟩

theorem listMaxZ_mem : ∀ (l : List ℤ), l ≠ [] → listMaxZ l ∈ l
  | [], h => absurd rfl h
  | [a], _ => by simp [listMaxZ]
  | a :: b :: t, _ => by
    rw [listMaxZ]
    rcases max_cases a (listMaxZ (b :: t)) with ⟨heq, _⟩ | ⟨heq, _⟩
    · rw [heq]
      exact List.mem_cons_self _ _
    · rw [heq]
      exact List.mem_cons_of_mem _ (listMaxZ_mem (b :: t) (by simp))

theorem argmaxIdx_getD (l : List ℤ) (hne : l ≠ []) :
    l.getD (argmaxIdx l) 0 = listMaxZ l := by
  have hmem : listMaxZ l ∈ l := listMaxZ_mem l hne
  have hlt : l.indexOf (listMaxZ l) < l.length := List.indexOf_lt_length.mpr hmem
  have hget : l.get ⟨l.indexOf (listMaxZ l), hlt⟩ = listMaxZ l :=
    List.indexOf_get hlt
  rw [argmaxIdx, List.getD_eq_getElem?_getD, List.getElem?_eq_getElem hlt]
  simpa [List.get_eq_getElem] using hget

theorem firstPeak_prefix_le : ∀ (l : List ℤ) (i : Nat), i ≤ firstPeakIdx l →
    l.getD i 0 ≤ l.getD (firstPeakIdx l) 0
  | [], i, hi => by
    simp only [firstPeakIdx, Nat.le_zero] at hi
    subst hi
    exact le_refl _
  | [a], i, hi => by
    simp only [firstPeakIdx, Nat.le_zero] at hi
    subst hi
    exact le_refl _
  | a :: b :: t, i, hi => by
    by_cases hba : b < a
    · rw [firstPeakIdx, if_pos hba] at hi ⊢
      have : i = 0 := Nat.le_zero.mp hi
      subst this
      exact le_refl _
    · rw [firstPeakIdx, if_neg hba] at hi ⊢
      cases i with
      | zero =>
        have hab : a ≤ b := le_of_not_lt hba
        have h0 : (b :: t).getD 0 0 ≤ (b :: t).getD (firstPeakIdx (b :: t)) 0 :=
          firstPeak_prefix_le (b :: t) 0 (Nat.zero_le _)
        simp only [List.getD_cons_zero, List.getD_cons_succ] at h0 ⊢
        exact le_trans hab h0
      | succ j =>
        have hj := firstPeak_prefix_le (b :: t) j (Nat.succ_le_succ_iff.mp hi)
        simp only [List.getD_cons_succ]
        exact hj

theorem firstPeak_lt_argmax (l : List ℤ)
    (hlt : l.getD (firstPeakIdx l) 0 < listMaxZ l) :
    firstPeakIdx l < argmaxIdx l := by
  cases l with
  | nil =>
    simp only [firstPeakIdx, listMaxZ, List.getD_nil] at hlt
    exact absurd hlt (lt_irrefl 0)
  | cons a t =>
    by_contra hcon
    push_neg at hcon
    have hmax := argmaxIdx_getD (a :: t) (by simp)
    have hle := firstPeak_prefix_le (a :: t) (argmaxIdx (a :: t)) hcon
    rw [hmax] at hle
    exact absurd hlt (not_lt.mpr hle)

/-- C5: on a single-peak waveform the FirstPeak and Threshold
reconstructions emit pulses with identical start and end samples; on a
waveform whose single above-threshold region holds two bumps with the later
one taller (the region's maximum exceeds the first rising-edge local
maximum), the two report different peak times, FirstPeak reporting the
first rising-edge local maximum and Threshold a strictly later sample. -/
theorem C5_firstpeak_vs_threshold :
    (∀ (thr : ℤ) (wf : List ℤ), SinglePeak thr wf →
      (recoPulsesFirstPeak thr wf).map (fun p => (p.t_start, p.t_end))
        = (recoPulsesThreshold thr wf).map (fun p => (p.t_start, p.t_end))) ∧
    (∀ (thr : ℤ) (wf : List ℤ) (s : Nat) (run : List ℤ),
      regions thr wf = [(s, run)] →
      run.getD (firstPeakIdx run) 0 < listMaxZ run →
      recoPulsesFirstPeak thr wf = [mkPulseFirstPeak s run] ∧
      recoPulsesThreshold thr wf = [mkPulseThreshold s run] ∧
      (mkPulseFirstPeak s run).t_max < (mkPulseThreshold s run).t_max ∧
      (mkPulseFirstPeak s run).t_max = s + firstPeakIdx run) := by
  constructor
  · intro thr wf _
    simp [recoPulsesFirstPeak, recoPulsesThreshold, List.map_map,
      mkPulseFirstPeak, mkPulseThreshold, Function.comp]
  · intro thr wf s run hreg hlt
    refine ⟨?_, ?_, ?_, rfl⟩
    · rw [recoPulsesFirstPeak, hreg]
      rfl
    · rw [recoPulsesThreshold, hreg]
      rfl
    · show s + firstPeakIdx run < s + argmaxIdx run
      exact Nat.add_lt_add_left (firstPeak_lt_argmax run hlt) s

theorem C5_firstpeak_vs_threshold_witness :
    SinglePeak 0 [0, 2, 3, 1, 0] ∧
    regions 0 [0, 2, 1, 3, 0] = [(1, [2, 1, 3])] ∧
    ([2, 1, 3] : List ℤ).getD (firstPeakIdx [2, 1, 3]) 0 < listMaxZ [2, 1, 3] ∧
    ((recoPulsesFirstPeak 0 [0, 2, 3, 1, 0]).map (fun p => (p.t_start, p.t_end))
        = (recoPulsesThreshold 0 [0, 2, 3, 1, 0]).map (fun p => (p.t_start, p.t_end))) ∧
    (recoPulsesFirstPeak 0 [0, 2, 1, 3, 0] = [mkPulseFirstPeak 1 [2, 1, 3]] ∧
     recoPulsesThreshold 0 [0, 2, 1, 3, 0] = [mkPulseThreshold 1 [2, 1, 3]] ∧
     (mkPulseFirstPeak 1 [2, 1, 3]).t_max < (mkPulseThreshold 1 [2, 1, 3]).t_max ∧
     (mkPulseFirstPeak 1 [2, 1, 3]).t_max = 1 + firstPeakIdx [2, 1, 3]) :=
  ⟨⟨1, [2, 3, 1], by norm_num [regions, regionsGo], by decide⟩,
   by norm_num [regions, regionsGo],
   by decide,
   C5_firstpeak_vs_threshold.1 0 [0, 2, 3, 1, 0]
     ⟨1, [2, 3, 1], by norm_num [regions, regionsGo], by decide⟩,
   C5_firstpeak_vs_threshold.2 0 [0, 2, 1, 3, 0] 1 [2, 1, 3]
     (by norm_num [regions, regionsGo]) (by decide)⟩

theorem isLateLightOf_false_of_max (w frac ovFrac : ℚ) (hfrac : frac ≤ 1)
    {flashes : List OpFlash} {F A : OpFlash} (hA : A ∈ flashes)
    (hpe : ∀ g ∈ flashes, 0 ≤ g.totalPE)
    (hmax : ∀ g ∈ flashes, g.totalPE ≤ F.totalPE) :
    isLateLightOf w frac ovFrac A F = false := by
  have h1 : frac * A.totalPE ≤ A.totalPE :=
    mul_le_of_le_one_left (hpe A hA) hfrac
  have h2 : A.totalPE ≤ F.totalPE := hmax A hA
  have hz : ¬(F.totalPE < frac * A.totalPE) := by
    apply not_lt.mpr
    linarith
  simp [isLateLightOf, hz]

/-- C6: RemoveLateLight never drops a flash of globally maximal total PE
(provided the PE fraction is at most one and total PEs are nonnegative, as
they are for flashes aggregated from real hits), and a flash is only ever
dropped as flash B of a time-ordered pair: some earlier flash A of the
collection precedes it within the late-light window, B's total PE is below
the configured fraction of A's, and B's active channels substantially
overlap A's. -/
theorem C6_late_light_never_drops_max (w frac ovFrac : ℚ) (hfrac : frac ≤ 1)
    (flashes : List OpFlash) (clusters : List (List Nat)) (F : OpFlash)
    (hF : F ∈ flashes) (hpe : ∀ g ∈ flashes, 0 ≤ g.totalPE)
    (hmax : ∀ g ∈ flashes, g.totalPE ≤ F.totalPE) :
    F ∈ (RemoveLateLight w frac ovFrac flashes clusters).1 ∧
    (∀ B ∈ flashes, B ∉ (RemoveLateLight w frac ovFrac flashes clusters).1 →
      ∃ A ∈ flashes, A.time < B.time ∧ B.time ≤ A.time + w ∧
        B.totalPE < frac * A.totalPE ∧
        ovFrac * ((activeChannels B).length : ℚ) ≤ (overlapCount A B : ℚ)) := by
  constructor
  · apply List.mem_filter.mpr
    refine ⟨hF, ?_⟩
    simp only [droppedAsLateLight, Bool.not_eq_true', List.any_eq_false]
    intro A hA
    simp [isLateLightOf_false_of_max w frac ovFrac hfrac hA hpe hmax]
  · intro B hB hBdrop
    have hpred : ¬((!droppedAsLateLight w frac ovFrac flashes B) = true) := by
      intro hcon
      exact hBdrop (List.mem_filter.mpr ⟨hB, hcon⟩)
    have hdrop : droppedAsLateLight w frac ovFrac flashes B = true := by
      revert hpred
      cases droppedAsLateLight w frac ovFrac flashes B <;> simp
    rcases List.any_eq_true.mp hdrop with ⟨A, hA, hAB⟩
    refine ⟨A, hA, ?_⟩
    simpa [isLateLightOf, Bool.and_eq_true, decide_eq_true_eq, and_assoc]
      using hAB

theorem C6_late_light_never_drops_max_witness :
    ((1 : ℚ) / 2 ≤ 1) ∧
    OpFlash.mk 0 0 10 [10] 0 ∈ [OpFlash.mk 0 0 10 [10] 0, OpFlash.mk 5 0 1 [1] 0] ∧
    (∀ g ∈ [OpFlash.mk 0 0 10 [10] 0, OpFlash.mk 5 0 1 [1] 0], 0 ≤ g.totalPE) ∧
    (∀ g ∈ [OpFlash.mk 0 0 10 [10] 0, OpFlash.mk 5 0 1 [1] 0],
      g.totalPE ≤ (OpFlash.mk 0 0 10 [10] 0).totalPE) ∧
    (OpFlash.mk 0 0 10 [10] 0
        ∈ (RemoveLateLight 10 (1 / 2) (1 / 2)
            [OpFlash.mk 0 0 10 [10] 0, OpFlash.mk 5 0 1 [1] 0] [[0], [1]]).1 ∧
     (∀ B ∈ [OpFlash.mk 0 0 10 [10] 0, OpFlash.mk 5 0 1 [1] 0],
        B ∉ (RemoveLateLight 10 (1 / 2) (1 / 2)
            [OpFlash.mk 0 0 10 [10] 0, OpFlash.mk 5 0 1 [1] 0] [[0], [1]]).1 →
        ∃ A ∈ [OpFlash.mk 0 0 10 [10] 0, OpFlash.mk 5 0 1 [1] 0],
          A.time < B.time ∧ B.time ≤ A.time + 10 ∧
          B.totalPE < 1 / 2 * A.totalPE ∧
          1 / 2 * ((activeChannels B).length : ℚ) ≤ (overlapCount A B : ℚ))) :=
  ⟨by norm_num, by decide, by decide, by decide,
    C6_late_light_never_drops_max 10 (1 / 2) (1 / 2) (by norm_num)
      [OpFlash.mk 0 0 10 [10] 0, OpFlash.mk 5 0 1 [1] 0] [[0], [1]]
      (OpFlash.mk 0 0 10 [10] 0) (by decide) (by decide) (by decide)⟩

theorem find?_first {lb : ℚ} :
    ∀ (pre : List ℚ) (t : ℚ) (post : List ℚ),
      (∀ s ∈ pre, (decide (lb ≤ s)) = false) → (decide (lb ≤ t)) = true →
      (pre ++ t :: post).find? (fun x => decide (lb ≤ x)) = some t
  | [], t, post, _, hpt => by
    simp [List.find?_cons, hpt]
  | s :: pre', t, post, hpre, hpt => by
    have hs : (decide (lb ≤ s)) = false := hpre s (List.mem_cons_self s pre')
    rw [List.cons_append, List.find?_cons_of_neg _ (by simp [hs])]
    exact find?_first pre' t post
      (fun x hx => hpre x (List.mem_cons_of_mem _ hx)) hpt

/-- C7: GetTriggerTime returns the first beam-gate/trigger marker whose
time is at or after the configured lower bound; when no marker qualifies it
returns the no-trigger sentinel, flag set with time 0, as an ordinary
result rather than an error. -/
theorem C7_trigger_time (gates : List ℚ) (lb : ℚ) :
    ((∀ t ∈ gates, t < lb) → GetTriggerTime gates lb = (true, 0)) ∧
    (∀ pre t post, gates = pre ++ t :: post → (∀ s ∈ pre, s < lb) → lb ≤ t →
      GetTriggerTime gates lb = (false, t)) := by
  constructor
  · intro hall
    have hfind : gates.find? (fun x => decide (lb ≤ x)) = none := by
      rw [List.find?_eq_none]
      intro x hx
      simp only [decide_eq_true_eq, not_le]
      exact hall x hx
    simp [GetTriggerTime, hfind]
  · intro pre t post hsplit hpre hlb
    subst hsplit
    have hfind : (pre ++ t :: post).find? (fun x => decide (lb ≤ x)) = some t :=
      find?_first pre t post
        (fun s hs => decide_eq_false (not_le.mpr (hpre s hs)))
        (decide_eq_true hlb)
    simp [GetTriggerTime, hfind]

theorem C7_trigger_time_witness :
    (∀ t ∈ [(1 : ℚ), 2], t < 4) ∧
    GetTriggerTime [1, 2] 4 = (true, 0) ∧
    ([(1 : ℚ), 5, 9] = [1] ++ 5 :: [9]) ∧
    (∀ s ∈ [(1 : ℚ)], s < 4) ∧
    ((4 : ℚ) ≤ 5) ∧
    GetTriggerTime [1, 5, 9] 4 = (false, 5) :=
  ⟨by norm_num, (C7_trigger_time [1, 2] 4).1 (by norm_num),
   by norm_num,
   by norm_num, by norm_num,
   (C7_trigger_time [1, 5, 9] 4).2 [1] 5 [9] (by norm_num) (by norm_num)
     (by norm_num)⟩

/-- C8: a malformed (empty or truncated) waveform makes RecoPulse report
failure with zero pulses; frame processing still yields a result for every
channel, the malformed channel contributes an empty pulse list, and every
other channel's result is exactly what it would have been anyway. -/
theorem C8_malformed_waveform_is_local (thr : ℤ) (minLen : Nat)
    (wfs : List (List ℤ)) (i : Nat) (bad : List ℤ)
    (hbad : bad.length < minLen) :
    RecoPulse thr minLen bad = (false, []) ∧
    (processChannels thr minLen (wfs.set i bad)).length = wfs.length ∧
    (∀ j, j ≠ i →
      (processChannels thr minLen (wfs.set i bad))[j]?
        = (processChannels thr minLen wfs)[j]?) ∧
    (i < wfs.length → (processChannels thr minLen (wfs.set i bad))[i]? = some []) := by
  refine ⟨?_, ?_, ?_, ?_⟩
  · simp [RecoPulse, hbad]
  · simp [processChannels]
  · intro j hj
    simp only [processChannels, List.getElem?_map]
    rw [List.getElem?_set_ne (fun h => hj h.symm)]
  · intro hi
    simp only [processChannels, List.getElem?_map]
    rw [List.getElem?_set_self (by simpa using hi)]
    simp [RecoPulse, hbad]

theorem C8_malformed_waveform_is_local_witness :
    ([(5 : ℤ)].length < 3) ∧
    (RecoPulse 0 3 [(5 : ℤ)] = (false, []) ∧
     (processChannels 0 3 ([[0, 4, 0], [0, 7, 0]].set 1 [(5 : ℤ)])).length
        = [[(0 : ℤ), 4, 0], [0, 7, 0]].length ∧
     (∀ j, j ≠ 1 →
       (processChannels 0 3 ([[0, 4, 0], [0, 7, 0]].set 1 [(5 : ℤ)]))[j]?
         = (processChannels 0 3 [[(0 : ℤ), 4, 0], [0, 7, 0]])[j]?) ∧
     (1 < [[(0 : ℤ), 4, 0], [0, 7, 0]].length →
       (processChannels 0 3 ([[0, 4, 0], [0, 7, 0]].set 1 [(5 : ℤ)]))[1]? = some [])) :=
  ⟨by decide,
    C8_malformed_waveform_is_local 0 3 [[0, 4, 0], [0, 7, 0]] 1 [5] (by decide)⟩

/-- C9: on an event flagged as real data, with OverrideRealData false,
produce returns at the isRealData guard: nothing is created or stored, no
tree entry is filled, the event is left untouched. -/
theorem C9_real_data_early_return (cfg : t0.ProduceConfig)
    (inp : t0.ProduceInput) (h1 : inp.isRealData = true)
    (h2 : cfg.overrideRealData = false) :
    t0.produce cfg inp = t0.emptyOutput := by
  simp [t0.produce, h1, h2]

theorem C9_real_data_early_return_witness :
    (t0.ProduceInput.mk true true [some (t0.MCParticle.mk 7 3)] true
        [some (t0.MCParticle.mk 9 4)] true [none] 5).isRealData = true ∧
    (t0.ProduceConfig.mk false true true true).overrideRealData = false ∧
    t0.produce (t0.ProduceConfig.mk false true true true)
        (t0.ProduceInput.mk true true [some (t0.MCParticle.mk 7 3)] true
          [some (t0.MCParticle.mk 9 4)] true [none] 5)
      = t0.emptyOutput :=
  ⟨rfl, rfl,
    C9_real_data_early_return (t0.ProduceConfig.mk false true true true)
      (t0.ProduceInput.mk true true [some (t0.MCParticle.mk 7 3)] true
        [some (t0.MCParticle.mk 9 4)] true [none] 5) rfl rfl⟩

theorem pushT0_id_eq_index {col : List t0.T0} {p : t0.MCParticle}
    (hcol : ∀ (j : Nat) (u : t0.T0), col[j]? = some u → u.id = j) :
    ∀ (j : Nat) (u : t0.T0), (t0.pushT0 col p)[j]? = some u → u.id = j := by
  intro j u hju
  simp only [t0.pushT0] at hju
  rw [List.getElem?_append] at hju
  split at hju
  · exact hcol j u hju
  · rename_i hge
    push_neg at hge
    rcases List.getElem?_eq_some_iff.mp hju with ⟨hlt, _⟩
    simp only [List.length_cons, List.length_nil] at hlt
    have hj : j = col.length := by omega
    have h0 : j - col.length = 0 := by omega
    rw [h0] at hju
    simp only [List.getElem?_cons_zero, Option.some.injEq] at hju
    rw [← hju]
    exact hj.symm

theorem processItems_id_eq_index :
    ∀ (items : List (Option t0.MCParticle)) (col : List t0.T0),
      (∀ (j : Nat) (u : t0.T0), col[j]? = some u → u.id = j) →
      ∀ (j : Nat) (u : t0.T0),
        (t0.processItems col items)[j]? = some u → u.id = j := by
  intro items
  induction items with
  | nil =>
    intro col hcol j u hju
    simp only [t0.processItems, List.foldl_nil] at hju
    exact hcol j u hju
  | cons item rest ih =>
    intro col hcol j u hju
    simp only [t0.processItems, List.foldl_cons] at hju
    cases item with
    | none =>
      exact ih col hcol j u (by simpa [t0.processItems] using hju)
    | some p =>
      exact ih (t0.pushT0 col p) (pushT0_id_eq_index hcol) j u
        (by simpa [t0.processItems] using hju)

/-- C10: every anab::T0 that produce appends is constructed with ID equal
to the collection size at insertion, so each stored T0's ID field equals
its index in the output collection; and whenever produce stores a T0
collection at all, that collection is exactly the one built by the three
matching loops. -/
theorem C10_t0_id_equals_index (cfg : t0.ProduceConfig)
    (inp : t0.ProduceInput) (i : Nat) (u : t0.T0)
    (hit : (t0.buildT0col inp)[i]? = some u) :
    u.id = i ∧
    (∀ col, (t0.produce cfg inp).putT0 = some col → col = t0.buildT0col inp) := by
  constructor
  · simp only [t0.buildT0col] at hit
    exact processItems_id_eq_index _ _
      (processItems_id_eq_index _ _
        (processItems_id_eq_index _ [] (fun j v hjv => by simp at hjv)))
      i u hit
  · intro col hcol
    rw [t0.produce] at hcol
    split at hcol
    · simp [t0.emptyOutput] at hcol
    · simp only at hcol
      split at hcol
      · injection hcol with h
        exact h.symm
      · simp at hcol

theorem C10_t0_id_equals_index_witness :
    (t0.buildT0col (t0.ProduceInput.mk false true
        [some (t0.MCParticle.mk 7 3), none] true [some (t0.MCParticle.mk 9 4)]
        true [] 0))[1]? = some (t0.T0.mk 4 2 9 1) ∧
    ((t0.T0.mk 4 2 9 1).id = 1 ∧
     (∀ col, (t0.produce (t0.ProduceConfig.mk false true false true)
          (t0.ProduceInput.mk false true
            [some (t0.MCParticle.mk 7 3), none] true [some (t0.MCParticle.mk 9 4)]
            true [] 0)).putT0 = some col →
        col = t0.buildT0col (t0.ProduceInput.mk false true
          [some (t0.MCParticle.mk 7 3), none] true [some (t0.MCParticle.mk 9 4)]
          true [] 0))) :=
  ⟨by decide,
    C10_t0_id_equals_index (t0.ProduceConfig.mk false true false true)
      (t0.ProduceInput.mk false true
        [some (t0.MCParticle.mk 7 3), none] true [some (t0.MCParticle.mk 9 4)]
        true [] 0) 1 (t0.T0.mk 4 2 9 1) (by decide)⟩
